import Mathlib

/-!
Verification of the matching/scoring logic of the investor-matcher
application (`src/app.py`) against its natural-language specification.

The Python code is shallowly embedded as follows:
* Python strings are `String`/`List Char`; `str.split(",")`, `str.strip()`,
  `str.replace(pat, "")`, `str.lower()`/`str.upper()` are modelled by the
  executable functions `splitComma`, `pyStrip`, `pyReplaceDel` and
  `Char.toLower`/`Char.toUpper` (the ASCII behaviour, which is what all the
  data in play exercises).
* Python floats are modelled by `ℚ`; a DataFrame cell that is passed to
  `float(...)` is a `NumVal`, whose `nonNumeric` constructor stands for a
  value on which `float()` raises `ValueError`.
* Python `set`s of strings are `Finset (List Char)`.
* A raising computation is an `Except PyError _`; `st.error` followed by
  `return pd.DataFrame()` is the `.ok` result with `errorShown = true`.
-/

namespace InvestorMatcher

/-- Model of Python `str.strip()` (on the character list): drop whitespace
from the front, then from the back. -/
def pyStrip (l : List Char) : List Char :=
  List.rdropWhile Char.isWhitespace (l.dropWhile Char.isWhitespace)

/-- Model of Python `s.split(",")`: split at every comma; the empty string
yields `[[]]`, like `"".split(",") == [""]`. -/
def splitComma : List Char → List (List Char)
  | [] => [[]]
  | c :: rest =>
    if c = ',' then [] :: splitComma rest
    else
      match splitComma rest with
      | [] => [[c]]
      | t :: ts => (c :: t) :: ts

/-- Model of Python `",".join(tokens)` (on character lists). -/
def joinComma : List (List Char) → List Char
  | [] => []
  | [t] => t
  | t :: ts => t ++ ',' :: joinComma ts

/-- Fuel-indexed left-to-right scanner deleting non-overlapping occurrences
of `pat`.  Each step consumes one unit of fuel and at least one character,
so fuel equal to the input length always suffices (`replaceDelFuel_eq`
below recovers the fuel-free recurrence). -/
def replaceDelFuel (pat : List Char) : Nat → List Char → List Char
  | _, [] => []
  | 0, l => l
  | fuel + 1, c :: rest =>
    if pat ≠ [] ∧ pat.isPrefixOf (c :: rest) then
      replaceDelFuel pat fuel (List.drop pat.length (c :: rest))
    else
      c :: replaceDelFuel pat fuel rest

/-- Model of Python `s.replace(pat, "")`: delete the non-overlapping
occurrences of `pat`, scanning left to right. -/
def pyReplaceDel (pat : List Char) (l : List Char) : List Char :=
  replaceDelFuel pat l.length l

instance instDecidableEqExcept {ε α : Type} [DecidableEq ε] [DecidableEq α] :
    DecidableEq (Except ε α) := fun a b =>
  match a, b with
  | .error e, .error e' =>
    if h : e = e' then .isTrue (by rw [h]) else .isFalse (fun c => h (by injection c))
  | .ok x, .ok y =>
    if h : x = y then .isTrue (by rw [h]) else .isFalse (fun c => h (by injection c))
  | .error _, .ok _ => .isFalse (fun c => by injection c)
  | .ok _, .error _ => .isFalse (fun c => by injection c)

/-- Normalization applied to each comma-token by `parse_esg_tags`:
`tag.strip().lower()`. -/
def normTok (t : List Char) : List Char :=
  (pyStrip t).map Char.toLower

/-- The token list produced by `parse_esg_tags` before it is collected into
a set, on the character-list level:
`tags.replace("E:", "").replace("S:", "").replace("G:", "").split(",")`,
each token stripped and lowercased. -/
def parseTagsList (l : List Char) : List (List Char) :=
  (splitComma (pyReplaceDel ['G', ':']
    (pyReplaceDel ['S', ':'] (pyReplaceDel ['E', ':'] l)))).map normTok

/-- Embedding of `parse_esg_tags` (src/app.py lines 58-59):
`set(tag.strip().lower() for tag in
tags.replace("E:", "").replace("S:", "").replace("G:", "").split(","))`. -/
def parse_esg_tags (tags : String) : Finset (List Char) :=
  (parseTagsList tags.toList).toFinset

/-- Sequential character-level scanner that removes every occurrence of the
two-character substring `d, ':'`.  Used to state the specification's
description of the tag normalizer (section 4.1: strip the dimension prefix
"independent of position", i.e. global substring removal). -/
def removeTag (d : Char) : List Char → List Char
  | [] => []
  | [c] => [c]
  | c1 :: c2 :: rest =>
    if c1 = d ∧ c2 = ':' then removeTag d rest
    else c1 :: removeTag d (c2 :: rest)

/-- The tag normalizer as the specification words it (section 4.1 /
claim C3): remove every occurrence of the substrings "E:", "S:", "G:"
anywhere in the input, split on commas, trim, lowercase, collect a set. -/
def esgNormalizeSpec (tags : String) : Finset (List Char) :=
  ((splitComma (removeTag 'G'
    (removeTag 'S' (removeTag 'E' tags.toList)))).map normTok).toFinset

/-- The investor's preferred-criteria set (src/app.py line 70):
`set(str(investor_row['preferred_esg_criteria']).lower().split(","))` —
note the tokens are lowercased but not stripped. -/
def preferredSet (s : String) : Finset (List Char) :=
  (splitComma (s.toList.map Char.toLower)).toFinset

/-- A DataFrame cell that the code passes to Python `float()`: either a
value `float()` converts to the rational `q`, or a non-numeric value on
which `float()` raises `ValueError`. -/
inductive NumVal where
  | num (q : ℚ)
  | nonNumeric (s : String)
deriving DecidableEq, Repr

/-- Result of Python `float()` on a cell: `none` means `ValueError`. -/
def pyFloat : NumVal → Option ℚ
  | .num q => some q
  | .nonNumeric _ => none

/-- An investor row (store schema `investors`, src/app.py lines 16-22). -/
structure Investor where
  name : String
  sector_focus : String
  min_investment_size : NumVal
  preferred_esg_criteria : String
deriving DecidableEq, Repr

/-- A project row (store schema `projects`, src/app.py lines 24-33). -/
structure Project where
  name : String
  sector : String
  location : String
  funding_needed : NumVal
  sustainability_impact : String
  esg_tags : String
  readiness_level : Option String
deriving DecidableEq, Repr

/-- The Python exceptions the matching code can raise. -/
inductive PyError where
  | valueError
  | indexError
deriving DecidableEq, Repr

/-- One row of the match DataFrame built at src/app.py lines 81-87. -/
structure MatchRec where
  projectName : String
  sector : String
  fundingNeeded : ℚ
  esgScore : ℕ
  readiness : String
deriving DecidableEq, Repr

/-- The DataFrame returned by `match_projects_to_investor`; `errorShown`
records whether the `st.error` branch (invalid `min_investment_size`) was
taken before returning. -/
structure MatchedDF where
  errorShown : Bool
  rows : List MatchRec
deriving DecidableEq, Repr

/-- The ESG overlap score (src/app.py line 77):
`len(preferred_esg.intersection(esg_tags))`. -/
def esgScoreOf (preferred : Finset (List Char)) (tags : String) : ℕ :=
  (preferred ∩ parse_esg_tags tags).card

/-- The match record appended for a passing project (src/app.py
lines 81-87); `p.get('readiness_level', 'Idea')` defaults to `"Idea"`. -/
def recordOf (p : Project) (funding : ℚ) (score : ℕ) : MatchRec :=
  ⟨p.name, p.sector, funding, score, p.readiness_level.getD "Idea"⟩

/-- One step of the generator in src/app.py line 80: for a comma-token
`tag`, evaluate `tag.strip()[0]` (raising `IndexError` on an empty strip),
uppercase it, and test membership in `selected_tags`; short-circuit on the
first `True`. -/
def dimScan (selected : List String) : List (List Char) → Except PyError Bool
  | [] => .ok false
  | t :: ts =>
    match pyStrip t with
    | [] => .error .indexError
    | c :: _ =>
      if (Char.toUpper c).toString ∈ selected then .ok true
      else dimScan selected ts

/-- The dimension-letter filter of src/app.py line 80:
`any(tag.strip()[0].upper() in selected_tags for tag in
p['esg_tags'].split(","))`. -/
def dimCheck (tags : String) (selected : List String) : Except PyError Bool :=
  dimScan selected (splitComma tags.toList)

/-- The loop body of src/app.py lines 73-87 for one project: convert
`funding_needed` (raising `ValueError` if non-numeric), compute the score,
test the three outer conditions, then the dimension-letter filter, and
produce the match record if everything passes. -/
def processProject (investorSector : List Char) (minInv : ℚ)
    (preferred : Finset (List Char)) (selected : List String)
    (p : Project) : Except PyError (Option MatchRec) :=
  match pyFloat p.funding_needed with
  | none => .error .valueError
  | some funding =>
    if p.sector.toList.map Char.toLower = investorSector ∧
        minInv ≤ funding ∧ 0 < esgScoreOf preferred p.esg_tags then
      match dimCheck p.esg_tags selected with
      | .error e => .error e
      | .ok true => .ok (some (recordOf p funding (esgScoreOf preferred p.esg_tags)))
      | .ok false => .ok none
    else .ok none

/-- The `for _, p in projects_df.iterrows()` loop of src/app.py
lines 73-87, accumulating the `matches` list in encounter order;
an exception raised at any project aborts the whole computation. -/
def collectMatches (investorSector : List Char) (minInv : ℚ)
    (preferred : Finset (List Char)) (selected : List String) :
    List Project → Except PyError (List MatchRec)
  | [] => .ok []
  | p :: ps =>
    match processProject investorSector minInv preferred selected p with
    | .error e => .error e
    | .ok r =>
      match collectMatches investorSector minInv preferred selected ps with
      | .error e => .error e
      | .ok ms =>
        .ok (match r with | some m => m :: ms | none => ms)

/-- The sort key order of src/app.py line 89:
`key=lambda x: (-x['ESG Score'], x['Funding Needed'])`, i.e. score
descending, then funding ascending. -/
def matchLe (a b : MatchRec) : Prop :=
  b.esgScore < a.esgScore ∨
    (b.esgScore = a.esgScore ∧ a.fundingNeeded ≤ b.fundingNeeded)

instance : DecidableRel matchLe := fun a b =>
  inferInstanceAs (Decidable (b.esgScore < a.esgScore ∨
    (b.esgScore = a.esgScore ∧ a.fundingNeeded ≤ b.fundingNeeded)))

/-- Embedding of `match_projects_to_investor` (src/app.py lines 62-89).
Python's `sorted` is a stable sort, which on a total preorder key is the
function computed by `List.insertionSort`. -/
def match_projects_to_investor (inv : Investor) (projects : List Project)
    (selected : List String) : Except PyError MatchedDF :=
  match pyFloat inv.min_investment_size with
  | none => .ok ⟨true, []⟩
  | some minInv =>
    match collectMatches (inv.sector_focus.toList.map Char.toLower) minInv
        (preferredSet inv.preferred_esg_criteria) selected projects with
    | .error e => .error e
    | .ok ms => .ok ⟨false, List.insertionSort matchLe ms⟩

/-- A row of the `project_notes` table (src/app.py lines 34-41); the
`interested` column stores `int(interested)`. -/
structure NoteRow where
  investor_name : String
  project_name : String
  interested : Int
  notes : String
deriving DecidableEq, Repr

/-- Does a row carry the composite key `(i, pn)`? -/
def sameNoteKey (i pn : String) (r : NoteRow) : Bool :=
  r.investor_name == i && r.project_name == pn

/-- Model of the sqlite `INSERT OR REPLACE INTO project_notes` statement
of src/app.py lines 153-156 against the table's composite primary key
`(investor_name, project_name)` (src/app.py line 40): any existing row
with the same key is deleted and the new row inserted. -/
def upsertNote (db : List NoteRow) (r : NoteRow) : List NoteRow :=
  (db.filter fun x => !(sameNoteKey r.investor_name r.project_name x)) ++ [r]

/-! ### Character-level facts about ASCII lowercasing -/

theorem toNat_ofNatAux (n : Nat) (h : n.isValidChar) :
    (Char.ofNatAux n h).toNat = n := rfl

theorem char_toNat_inj {a b : Char} (h : a.toNat = b.toNat) : a = b := by
  have h2 := congrArg Char.ofNat h
  rwa [Char.ofNat_toNat, Char.ofNat_toNat] at h2

theorem char_eq_iff_toNat {a b : Char} : a = b ↔ a.toNat = b.toNat :=
  ⟨congrArg Char.toNat, char_toNat_inj⟩

theorem toLower_toNat (c : Char) : (Char.toLower c).toNat =
    if c.toNat ≥ 65 ∧ c.toNat ≤ 90 then c.toNat + 32 else c.toNat := by
  simp only [Char.toLower]
  split_ifs with h
  · have hv : Nat.isValidChar (c.toNat + 32) := Or.inl (by omega)
    simp only [Char.ofNat]
    rw [dif_pos hv, toNat_ofNatAux]
  · rfl

theorem toLower_idem (c : Char) :
    Char.toLower (Char.toLower c) = Char.toLower c := by
  apply char_toNat_inj
  rw [toLower_toNat, toLower_toNat]
  split_ifs <;> omega

theorem toLower_eq_iff_small (c a : Char) (ha : a.toNat < 65) :
    Char.toLower c = a ↔ c = a := by
  rw [char_eq_iff_toNat, char_eq_iff_toNat, toLower_toNat]
  split_ifs with h <;> omega

theorem toLower_ne_of_upper (c a : Char) (ha : 65 ≤ a.toNat ∧ a.toNat ≤ 90) :
    Char.toLower c ≠ a := by
  intro h
  have h2 := congrArg Char.toNat h
  rw [toLower_toNat] at h2
  split_ifs at h2 <;> omega

theorem isWhitespace_toLower (c : Char) :
    (Char.toLower c).isWhitespace = c.isWhitespace := by
  unfold Char.isWhitespace
  simp only [toLower_eq_iff_small c ' ' (by decide),
    toLower_eq_iff_small c '\t' (by decide),
    toLower_eq_iff_small c '\r' (by decide),
    toLower_eq_iff_small c '\n' (by decide)]

/-! ### Facts about `pyStrip` -/

theorem dropWhile_pyStrip (l : List Char) :
    List.dropWhile Char.isWhitespace (pyStrip l) = pyStrip l := by
  unfold pyStrip
  rw [List.dropWhile_eq_self_iff]
  intro hl
  have hpre := List.rdropWhile_prefix Char.isWhitespace
    (List.dropWhile Char.isWhitespace l)
  have hlen : 0 < (List.dropWhile Char.isWhitespace l).length :=
    lt_of_lt_of_le hl hpre.length_le
  have hg := hpre.getElem (n := 0) hl
  intro hwrong
  apply List.dropWhile_get_zero_not Char.isWhitespace l hlen
  simpa [List.get_eq_getElem, hg] using hwrong

theorem pyStrip_idem (l : List Char) : pyStrip (pyStrip l) = pyStrip l := by
  conv_lhs => rw [pyStrip, dropWhile_pyStrip]
  rw [pyStrip, List.rdropWhile_idempotent]

theorem pyStrip_map_toLower (l : List Char) :
    pyStrip (l.map Char.toLower) = (pyStrip l).map Char.toLower := by
  have hcomp : (Char.isWhitespace ∘ Char.toLower) = Char.isWhitespace :=
    funext isWhitespace_toLower
  unfold pyStrip List.rdropWhile
  rw [List.dropWhile_map, hcomp, ← List.map_reverse, List.dropWhile_map, hcomp,
    ← List.map_reverse]

theorem mem_of_mem_pyStrip {c : Char} {l : List Char} (h : c ∈ pyStrip l) :
    c ∈ l := by
  unfold pyStrip at h
  have h1 := ( List.rdropWhile_prefix Char.isWhitespace
    (List.dropWhile Char.isWhitespace l)).sublist.subset h
  exact (List.dropWhile_sublist Char.isWhitespace).subset h1

/-! ### Facts about `splitComma` and `joinComma` -/

theorem splitComma_ne_nil (l : List Char) : splitComma l ≠ [] := by
  cases l with
  | nil => simp [splitComma]
  | cons c rest =>
    simp only [splitComma]
    split
    · simp
    · split <;> simp

theorem not_comma_mem_splitComma {l u : List Char} (hu : u ∈ splitComma l) :
    ',' ∉ u := by
  induction l generalizing u with
  | nil =>
    simp only [splitComma, List.mem_singleton] at hu
    simp [hu]
  | cons c rest ih =>
    simp only [splitComma] at hu
    split at hu
    · rcases List.mem_cons.mp hu with h | h
      · simp [h]
      · exact ih h
    · rename_i hc
      rcases hs : splitComma rest with _ | ⟨t, ts⟩
      · exact absurd hs (splitComma_ne_nil rest)
      · rw [hs] at hu
        rcases List.mem_cons.mp hu with h | h
        · subst h
          intro hmem
          rcases List.mem_cons.mp hmem with h2 | h2
          · exact hc h2.symm
          · exact ih (hs ▸ List.mem_cons_self t ts) h2
        · exact ih (hs ▸ List.mem_cons_of_mem t h)

theorem splitComma_no_comma {t : List Char} (h : ',' ∉ t) :
    splitComma t = [t] := by
  induction t with
  | nil => rfl
  | cons c cs ih =>
    have hc : ¬c = ',' := fun hc => h (hc ▸ List.mem_cons_self c cs)
    have hcs : ',' ∉ cs := fun hm => h (List.mem_cons_of_mem c hm)
    simp only [splitComma, if_neg hc, ih hcs]

theorem splitComma_append (t r : List Char) (h : ',' ∉ t) :
    splitComma (t ++ ',' :: r) = t :: splitComma r := by
  induction t with
  | nil => simp [splitComma]
  | cons c cs ih =>
    have hc : ¬c = ',' := fun hc => h (hc ▸ List.mem_cons_self c cs)
    have hcs : ',' ∉ cs := fun hm => h (List.mem_cons_of_mem c hm)
    simp only [List.cons_append, splitComma, if_neg hc, List.append_eq, ih hcs]

theorem splitComma_joinComma {e : List (List Char)} (he : e ≠ [])
    (h : ∀ t ∈ e, ',' ∉ t) : splitComma (joinComma e) = e := by
  induction e with
  | nil => exact absurd rfl he
  | cons t ts ih =>
    cases ts with
    | nil => exact splitComma_no_comma (h t (List.mem_cons_self _ _))
    | cons t2 ts2 =>
      have : joinComma (t :: t2 :: ts2) = t ++ ',' :: joinComma (t2 :: ts2) := rfl
      rw [this, splitComma_append t _ (h t (List.mem_cons_self _ _)),
        ih (by simp) (fun u hu => h u (List.mem_cons_of_mem t hu))]

theorem mem_joinComma {c : Char} {e : List (List Char)} (h : c ∈ joinComma e) :
    c = ',' ∨ ∃ t ∈ e, c ∈ t := by
  induction e with
  | nil => simp [joinComma] at h
  | cons t ts ih =>
    cases ts with
    | nil =>
      simp only [joinComma] at h
      exact Or.inr ⟨t, List.mem_cons_self _ _, h⟩
    | cons t2 ts2 =>
      have : joinComma (t :: t2 :: ts2) = t ++ ',' :: joinComma (t2 :: ts2) := rfl
      rw [this] at h
      rcases List.mem_append.mp h with h1 | h1
      · exact Or.inr ⟨t, List.mem_cons_self _ _, h1⟩
      · rcases List.mem_cons.mp h1 with h2 | h2
        · exact Or.inl h2
        · rcases ih h2 with h3 | ⟨u, hu, hcu⟩
          · exact Or.inl h3
          · exact Or.inr ⟨u, List.mem_cons_of_mem t hu, hcu⟩

/-! ### The scanner `removeTag` agrees with the fuelled Python `replace` -/

theorem removeTag_eq_self {d : Char} :
    ∀ {l : List Char}, (∀ c ∈ l, c ≠ d) → removeTag d l = l
  | [], _ => rfl
  | [_], _ => rfl
  | c1 :: c2 :: rest, h => by
    have h1 : ¬(c1 = d ∧ c2 = ':') := fun hc =>
      h c1 (List.mem_cons_self _ _) hc.1
    simp only [removeTag, if_neg h1]
    exact congrArg (c1 :: ·)
      (removeTag_eq_self fun c hc => h c (List.mem_cons_of_mem _ hc))

theorem replaceDelFuel_pair (d : Char) :
    ∀ (f : ℕ) (l : List Char), l.length ≤ f →
      replaceDelFuel [d, ':'] f l = removeTag d l
  | f, [], _ => by cases f <;> rfl
  | 0, c :: rest, h => by simp at h
  | f + 1, [c], _ => by
    have hpre : ([d, ':'].isPrefixOf [c]) = false := by
      simp [List.isPrefixOf]
    simp only [replaceDelFuel, hpre, Bool.false_eq_true, and_false, if_false,
      removeTag]
  | f + 1, c1 :: c2 :: rest, h => by
    by_cases hp : c1 = d ∧ c2 = ':'
    · have hpre : ([d, ':'].isPrefixOf (c1 :: c2 :: rest)) = true := by
        simp [List.isPrefixOf, hp.1, hp.2]
      have hcond : [d, ':'] ≠ [] ∧ ([d, ':'].isPrefixOf (c1 :: c2 :: rest)) = true :=
        ⟨by simp, hpre⟩
      simp only [replaceDelFuel, removeTag, if_pos hcond, if_pos hp]
      show replaceDelFuel [d, ':'] f rest = removeTag d rest
      exact replaceDelFuel_pair d f rest (by
        simp only [List.length_cons] at h
        omega)
    · have hpre : ¬([d, ':'] ≠ [] ∧ ([d, ':'].isPrefixOf (c1 :: c2 :: rest)) = true) := by
        rintro ⟨-, hP⟩
        simp only [List.isPrefixOf, Bool.and_eq_true, beq_iff_eq] at hP
        exact hp ⟨hP.1.symm, hP.2.1.symm⟩
      simp only [replaceDelFuel, removeTag, if_neg hpre, if_neg hp]
      exact congrArg (c1 :: ·) (replaceDelFuel_pair d f (c2 :: rest) (by
        simp only [List.length_cons] at h ⊢
        omega))

theorem pyReplaceDel_pair (d : Char) (l : List Char) :
    pyReplaceDel [d, ':'] l = removeTag d l :=
  replaceDelFuel_pair d l.length l le_rfl

theorem parse_eq_spec (s : String) : parse_esg_tags s = esgNormalizeSpec s := by
  unfold parse_esg_tags esgNormalizeSpec parseTagsList
  rw [pyReplaceDel_pair, pyReplaceDel_pair, pyReplaceDel_pair]

/-! ### Claim-side predicate definitions -/

/-- Does a (character-list) token have a first character whose uppercasing
is one of the selected dimension letters?  Applied to `pyStrip t` this is
the test `tag.strip()[0].upper() in selected_tags` performed by the code;
applied to the raw token `t` it is the "literal leading character" reading
of the specification's design note. -/
def firstCharAccepted (selected : List String) (t : List Char) : Bool :=
  match t with
  | [] => false
  | c :: _ => decide ((Char.toUpper c).toString ∈ selected)

/-- The dimension-letter condition as the code computes it (on inputs where
it does not raise): some comma-token of the raw tag string has the first
character of its stripped form, uppercased, in the selected set. -/
def dimLetterCond (tags : String) (selected : List String) : Prop :=
  ∃ t ∈ splitComma tags.toList, firstCharAccepted selected (pyStrip t) = true

/-- The dimension-letter filter as claim C4 words it: some comma-token of
the unparsed tag string has its literal (raw, untrimmed) leading character,
uppercased, in the selected set. -/
def rawDimHolds (tags : String) (selected : List String) : Bool :=
  (splitComma tags.toList).any (firstCharAccepted selected)

/-- The four conditions of claim C1 in its amended form, for one project,
given the parsed funding floor `minInv` and the project's parsed
`funding`: (1) lowercased sector equality, (2) funding at or above the
floor, (3) non-empty intersection of the investor's comma-split lowercased
criteria with the normalized tag set, (4) the dimension-letter condition
as the code computes it — the first character of each comma-token's
whitespace-**stripped** form, uppercased, tested against the selected set.
The claim's original condition (4), the raw untrimmed leading character
(`rawDimHolds`), is refuted by `c1_counterexample` below, the same
divergence corrected in C4. -/
def c1Conditions (inv : Investor) (minInv : ℚ) (selected : List String)
    (p : Project) (funding : ℚ) : Prop :=
  p.sector.toList.map Char.toLower = inv.sector_focus.toList.map Char.toLower ∧
  minInv ≤ funding ∧
  0 < esgScoreOf (preferredSet inv.preferred_esg_criteria) p.esg_tags ∧
  dimLetterCond p.esg_tags selected

/-- Tie class of the sort key: records with score `s` and funding `f`. -/
def tieClass (s : ℕ) (f : ℚ) (m : MatchRec) : Bool :=
  decide (m.esgScore = s ∧ m.fundingNeeded = f)

/-! ### Facts about the dimension-letter scan -/

theorem dimScan_ok_true {selected : List String} :
    ∀ {ts : List (List Char)}, dimScan selected ts = .ok true →
      ∃ t ∈ ts, firstCharAccepted selected (pyStrip t) = true := by
  intro ts
  induction ts with
  | nil => intro h; simp [dimScan] at h
  | cons t ts ih =>
    intro h
    rw [dimScan] at h
    split at h
    · exact absurd h (by simp)
    · rename_i c cs hs
      split_ifs at h with hmem
      · refine ⟨t, List.mem_cons_self _ _, ?_⟩
        rw [hs]
        simp [firstCharAccepted, hmem]
      · obtain ⟨u, hu, hacc⟩ := ih h
        exact ⟨u, List.mem_cons_of_mem _ hu, hacc⟩

theorem dimScan_ok_false {selected : List String} :
    ∀ {ts : List (List Char)}, dimScan selected ts = .ok false →
      ∀ t ∈ ts, firstCharAccepted selected (pyStrip t) = false := by
  intro ts
  induction ts with
  | nil => intro _ t ht; simp at ht
  | cons t ts ih =>
    intro h u hu
    rw [dimScan] at h
    split at h
    · exact absurd h (by simp)
    · rename_i c cs hs
      split_ifs at h with hmem
      · exact absurd h (by simp)
      · rcases List.mem_cons.mp hu with h2 | h2
        · subst h2
          rw [hs]
          simp [firstCharAccepted, hmem]
        · exact ih h u h2

theorem dimScan_eq_any {selected : List String} :
    ∀ {ts : List (List Char)}, (∀ t ∈ ts, pyStrip t ≠ []) →
      dimScan selected ts =
        .ok (ts.any fun t => firstCharAccepted selected (pyStrip t)) := by
  intro ts
  induction ts with
  | nil => intro _; rfl
  | cons t ts ih =>
    intro h
    rw [dimScan, List.any_cons]
    split
    · rename_i hs
      exact absurd hs (h t (List.mem_cons_self _ _))
    · rename_i c cs hs
      rw [hs]
      split_ifs with hmem
      · have hone : firstCharAccepted selected (c :: cs) = true := by
          simp [firstCharAccepted, hmem]
        rw [hone, Bool.true_or]
      · have hone : firstCharAccepted selected (c :: cs) = false := by
          simp [firstCharAccepted, hmem]
        rw [hone, Bool.false_or]
        exact ih fun u hu => h u (List.mem_cons_of_mem _ hu)

theorem dimScan_error_of_layout {selected : List String} :
    ∀ (pre : List (List Char)) (t : List Char) (post : List (List Char)),
      pyStrip t = [] →
      (∀ u ∈ pre, firstCharAccepted selected (pyStrip u) = false) →
      dimScan selected (pre ++ t :: post) = .error .indexError
  | [], t, post, ht, _ => by rw [List.nil_append, dimScan, ht]
  | u :: pre, t, post, ht, hpre => by
    rw [List.cons_append, dimScan]
    split
    · rfl
    · rename_i c cs hsu
      have hacc := hpre u (List.mem_cons_self _ _)
      rw [hsu] at hacc
      have hmem : ¬((Char.toUpper c).toString ∈ selected) := by
        simpa [firstCharAccepted] using hacc
      rw [if_neg hmem]
      exact dimScan_error_of_layout pre t post ht
        fun v hv => hpre v (List.mem_cons_of_mem _ hv)

/-! ### Facts about `processProject` and `collectMatches` -/

theorem processProject_ok_some {sec : List Char} {minInv : ℚ}
    {pref : Finset (List Char)} {selected : List String} {p : Project}
    {m : MatchRec}
    (h : processProject sec minInv pref selected p = .ok (some m)) :
    ∃ funding, pyFloat p.funding_needed = some funding ∧
      p.sector.toList.map Char.toLower = sec ∧ minInv ≤ funding ∧
      0 < esgScoreOf pref p.esg_tags ∧
      dimCheck p.esg_tags selected = .ok true ∧
      m = recordOf p funding (esgScoreOf pref p.esg_tags) := by
  rw [processProject.eq_def] at h
  split at h
  · exact absurd h (by simp)
  · rename_i funding hf
    split_ifs at h with hcond
    · split at h
      · exact absurd h (by simp)
      · rename_i hd
        have hm := Except.ok.inj h
        exact ⟨funding, hf, hcond.1, hcond.2.1, hcond.2.2, hd,
          (Option.some.inj hm).symm⟩
      · exact absurd h (by simp)
    · exact absurd h (by simp)

theorem processProject_conds {sec : List Char} {minInv : ℚ}
    {pref : Finset (List Char)} {selected : List String} {p : Project}
    {r : Option MatchRec} {funding : ℚ}
    (hr : processProject sec minInv pref selected p = .ok r)
    (hf : pyFloat p.funding_needed = some funding)
    (h1 : p.sector.toList.map Char.toLower = sec) (h2 : minInv ≤ funding)
    (h3 : 0 < esgScoreOf pref p.esg_tags)
    (h4 : ∃ t ∈ splitComma p.esg_tags.toList,
      firstCharAccepted selected (pyStrip t) = true) :
    r = some (recordOf p funding (esgScoreOf pref p.esg_tags)) := by
  rw [processProject.eq_def] at hr
  split at hr
  · rename_i hnone
    rw [hf] at hnone
    exact absurd hnone (by simp)
  · rename_i funding' hf'
    rw [hf] at hf'
    obtain rfl : funding = funding' := Option.some.inj hf'
    rw [if_pos ⟨h1, h2, h3⟩] at hr
    split at hr
    · exact absurd hr (by simp)
    · exact (Except.ok.inj hr).symm
    · rename_i hd
      obtain ⟨t, ht, hacc⟩ := h4
      unfold dimCheck at hd
      rw [dimScan_ok_false hd t ht] at hacc
      exact absurd hacc (by simp)

theorem processProject_funding_some {sec : List Char} {minInv : ℚ}
    {pref : Finset (List Char)} {selected : List String} {p : Project}
    {r : Option MatchRec}
    (hr : processProject sec minInv pref selected p = .ok r) :
    ∃ funding, pyFloat p.funding_needed = some funding := by
  rw [processProject.eq_def] at hr
  split at hr
  · exact absurd hr (by simp)
  · rename_i funding hf
    exact ⟨funding, hf⟩

theorem collectMatches_ok {sec : List Char} {minInv : ℚ}
    {pref : Finset (List Char)} {selected : List String} :
    ∀ {ps : List Project} {ms : List MatchRec},
      collectMatches sec minInv pref selected ps = .ok ms →
      (∀ p ∈ ps, ∃ r, processProject sec minInv pref selected p = .ok r) ∧
      (∀ m, m ∈ ms ↔
        ∃ p ∈ ps, processProject sec minInv pref selected p = .ok (some m)) := by
  intro ps
  induction ps with
  | nil =>
    intro ms h
    have hms : ms = [] := (Except.ok.inj h).symm
    subst hms
    exact ⟨by simp, by simp⟩
  | cons p ps ih =>
    intro ms h
    rw [collectMatches] at h
    split at h
    · exact absurd h (by simp)
    · rename_i r hp
      split at h
      · exact absurd h (by simp)
      · rename_i ms' hrest
        obtain ⟨iha, ihb⟩ := ih hrest
        refine ⟨?_, ?_⟩
        · intro q hq
          rcases List.mem_cons.mp hq with h2 | h2
          · exact ⟨r, h2 ▸ hp⟩
          · exact iha q h2
        · intro m
          cases r with
          | none =>
            have hms : ms = ms' := (Except.ok.inj h).symm
            subst hms
            constructor
            · intro hm
              obtain ⟨q, hq, hqq⟩ := (ihb m).mp hm
              exact ⟨q, List.mem_cons_of_mem _ hq, hqq⟩
            · rintro ⟨q, hq, hqq⟩
              rcases List.mem_cons.mp hq with h2 | h2
              · rw [h2] at hqq
                rw [hp] at hqq
                exact absurd (Except.ok.inj hqq) (by simp)
              · exact (ihb m).mpr ⟨q, h2, hqq⟩
          | some m0 =>
            have hms : ms = m0 :: ms' := (Except.ok.inj h).symm
            subst hms
            constructor
            · intro hm
              rcases List.mem_cons.mp hm with h2 | h2
              · exact ⟨p, List.mem_cons_self _ _, h2 ▸ hp⟩
              · obtain ⟨q, hq, hqq⟩ := (ihb m).mp h2
                exact ⟨q, List.mem_cons_of_mem _ hq, hqq⟩
            · rintro ⟨q, hq, hqq⟩
              rcases List.mem_cons.mp hq with h2 | h2
              · rw [h2] at hqq
                rw [hp] at hqq
                have h3 := Except.ok.inj hqq
                exact List.mem_cons.mpr (Or.inl (Option.some.inj h3).symm)
              · exact List.mem_cons.mpr (Or.inr ((ihb m).mpr ⟨q, h2, hqq⟩))

theorem collectMatches_error_of_badFunding {sec : List Char} {minInv : ℚ}
    {pref : Finset (List Char)} {selected : List String} :
    ∀ {ps : List Project} {p : Project}, p ∈ ps →
      pyFloat p.funding_needed = none →
      ∃ e, collectMatches sec minInv pref selected ps = .error e := by
  intro ps
  induction ps with
  | nil => intro p hp _; simp at hp
  | cons q qs ih =>
    intro p hp hf
    cases hq : processProject sec minInv pref selected q with
    | error e => exact ⟨e, by rw [collectMatches, hq]⟩
    | ok r =>
      rcases List.mem_cons.mp hp with h2 | h2
      · subst h2
        rw [processProject.eq_def, hf] at hq
        exact absurd
          (show (Except.error PyError.valueError :
            Except PyError (Option MatchRec)) = Except.ok r from hq) (by simp)
      · obtain ⟨e, he⟩ := ih h2 hf
        exact ⟨e, by rw [collectMatches, hq, he]⟩

/-! ### Shape of a run of the matcher -/

theorem match_ok_cases {inv : Investor} {projects : List Project}
    {selected : List String} {out : MatchedDF}
    (h : match_projects_to_investor inv projects selected = .ok out) :
    (pyFloat inv.min_investment_size = none ∧ out = ⟨true, []⟩) ∨
    (∃ minInv ms, pyFloat inv.min_investment_size = some minInv ∧
      collectMatches (inv.sector_focus.toList.map Char.toLower) minInv
        (preferredSet inv.preferred_esg_criteria) selected projects = .ok ms ∧
      out = ⟨false, List.insertionSort matchLe ms⟩) := by
  rw [match_projects_to_investor.eq_def] at h
  split at h
  · rename_i hnone
    exact Or.inl ⟨hnone, (Except.ok.inj h).symm⟩
  · rename_i minInv hmin
    split at h
    · exact absurd h (by simp)
    · rename_i ms hc
      exact Or.inr ⟨minInv, ms, hmin, hc, (Except.ok.inj h).symm⟩

theorem match_ok_of_collect {inv : Investor} {projects : List Project}
    {selected : List String} {minInv : ℚ} {ms : List MatchRec}
    (hmin : pyFloat inv.min_investment_size = some minInv)
    (hc : collectMatches (inv.sector_focus.toList.map Char.toLower) minInv
      (preferredSet inv.preferred_esg_criteria) selected projects = .ok ms) :
    match_projects_to_investor inv projects selected =
      .ok ⟨false, List.insertionSort matchLe ms⟩ := by
  have hstep : match_projects_to_investor inv projects selected =
      match collectMatches (inv.sector_focus.toList.map Char.toLower) minInv
        (preferredSet inv.preferred_esg_criteria) selected projects with
      | .error e => .error e
      | .ok ms => .ok ⟨false, List.insertionSort matchLe ms⟩ := by
    rw [match_projects_to_investor.eq_def, hmin]
  rw [hstep, hc]

theorem match_error_of_collect {inv : Investor} {projects : List Project}
    {selected : List String} {minInv : ℚ} {e : PyError}
    (hmin : pyFloat inv.min_investment_size = some minInv)
    (hc : collectMatches (inv.sector_focus.toList.map Char.toLower) minInv
      (preferredSet inv.preferred_esg_criteria) selected projects = .error e) :
    match_projects_to_investor inv projects selected = .error e := by
  have hstep : match_projects_to_investor inv projects selected =
      match collectMatches (inv.sector_focus.toList.map Char.toLower) minInv
        (preferredSet inv.preferred_esg_criteria) selected projects with
      | .error e => .error e
      | .ok ms => .ok ⟨false, List.insertionSort matchLe ms⟩ := by
    rw [match_projects_to_investor.eq_def, hmin]
  rw [hstep, hc]

/-! ### The sort order is a total preorder, and insertion sort is stable -/

instance : IsTotal MatchRec matchLe :=
  ⟨fun a b => by
    unfold matchLe
    rcases Nat.lt_trichotomy a.esgScore b.esgScore with h | h | h
    · exact Or.inr (Or.inl h)
    · rcases le_total a.fundingNeeded b.fundingNeeded with hf | hf
      · exact Or.inl (Or.inr ⟨h.symm, hf⟩)
      · exact Or.inr (Or.inr ⟨h, hf⟩)
    · exact Or.inl (Or.inl h)⟩

instance : IsTrans MatchRec matchLe :=
  ⟨fun a b c hab hbc => by
    unfold matchLe at *
    rcases hab with h1 | ⟨h1, h1f⟩ <;> rcases hbc with h2 | ⟨h2, h2f⟩
    · exact Or.inl (by omega)
    · exact Or.inl (by omega)
    · exact Or.inl (by omega)
    · exact Or.inr ⟨by omega, h1f.trans h2f⟩⟩

theorem tieClass_matchLe {s : ℕ} {f : ℚ} {a b : MatchRec}
    (ha : tieClass s f a = true) (hb : tieClass s f b = true) : matchLe a b := by
  obtain ⟨has, haf⟩ := of_decide_eq_true ha
  obtain ⟨hbs, hbf⟩ := of_decide_eq_true hb
  exact Or.inr ⟨by omega, by rw [haf, hbf]⟩

theorem orderedInsert_filter_pos {s : ℕ} {f : ℚ} {a : MatchRec}
    (ha : tieClass s f a = true) :
    ∀ l : List MatchRec, (List.orderedInsert matchLe a l).filter (tieClass s f) =
      a :: l.filter (tieClass s f)
  | [] => by simp [List.orderedInsert, List.filter, ha]
  | b :: t => by
    by_cases hab : matchLe a b
    · rw [List.orderedInsert, if_pos hab, List.filter_cons, if_pos ha]
    · have hb : ¬tieClass s f b = true := fun hb => hab (tieClass_matchLe ha hb)
      rw [List.orderedInsert, if_neg hab, List.filter_cons, if_neg hb,
        List.filter_cons, if_neg hb]
      exact orderedInsert_filter_pos ha t

theorem orderedInsert_filter_neg {s : ℕ} {f : ℚ} {a : MatchRec}
    (ha : tieClass s f a = false) :
    ∀ l : List MatchRec, (List.orderedInsert matchLe a l).filter (tieClass s f) =
      l.filter (tieClass s f)
  | [] => by simp [List.orderedInsert, List.filter, ha]
  | b :: t => by
    by_cases hab : matchLe a b
    · rw [List.orderedInsert, if_pos hab, List.filter_cons, if_neg (by simp [ha])]
    · rw [List.orderedInsert, if_neg hab, List.filter_cons, List.filter_cons,
        orderedInsert_filter_neg ha t]

theorem insertionSort_filter_tie (s : ℕ) (f : ℚ) :
    ∀ l : List MatchRec,
      (List.insertionSort matchLe l).filter (tieClass s f) =
        l.filter (tieClass s f)
  | [] => rfl
  | a :: t => by
    rw [List.insertionSort]
    by_cases ha : tieClass s f a = true
    · rw [orderedInsert_filter_pos ha, insertionSort_filter_tie s f t,
        List.filter_cons, if_pos ha]
    · have ha' : tieClass s f a = false := Bool.eq_false_iff.mpr ha
      rw [orderedInsert_filter_neg ha', insertionSort_filter_tie s f t,
        List.filter_cons, if_neg ha]

/-! ### Normalized tokens are fixed points of the normalization pipeline -/

theorem mem_parse_esg_tags {s : String} {t : List Char}
    (ht : t ∈ parse_esg_tags s) : ∃ u, t = normTok u ∧ ',' ∉ u := by
  unfold parse_esg_tags parseTagsList at ht
  rw [List.mem_toFinset] at ht
  obtain ⟨u, hu, huq⟩ := List.mem_map.mp ht
  exact ⟨u, huq.symm, not_comma_mem_splitComma hu⟩

theorem normTok_no_comma {u : List Char} (h : ',' ∉ u) : ',' ∉ normTok u := by
  unfold normTok
  intro hm
  obtain ⟨c, hc, hceq⟩ := List.mem_map.mp hm
  have hcu : c ∈ u := mem_of_mem_pyStrip hc
  have hcc : c = ',' := (toLower_eq_iff_small c ',' (by decide)).mp hceq
  exact h (hcc ▸ hcu)

theorem normTok_no_upper {u : List Char} {d : Char}
    (hd : 65 ≤ d.toNat ∧ d.toNat ≤ 90) : d ∉ normTok u := by
  unfold normTok
  intro hm
  obtain ⟨c, hc, hceq⟩ := List.mem_map.mp hm
  exact toLower_ne_of_upper c d hd hceq

theorem normTok_idem (u : List Char) : normTok (normTok u) = normTok u := by
  unfold normTok
  rw [pyStrip_map_toLower, pyStrip_idem, List.map_map]
  exact List.map_congr_left fun c _ => toLower_idem c

theorem parse_esg_tags_join {e : List (List Char)} (hne : e ≠ [])
    (htok : ∀ t ∈ e, ∃ u, t = normTok u ∧ ',' ∉ u) :
    parse_esg_tags (List.asString (joinComma e)) = e.toFinset := by
  have hnoU : ∀ d : Char, 65 ≤ d.toNat ∧ d.toNat ≤ 90 →
      ∀ c ∈ joinComma e, c ≠ d := by
    intro d hd c hc
    rcases mem_joinComma hc with h1 | ⟨t, ht, hct⟩
    · subst h1
      intro heq
      have h2 := congrArg Char.toNat heq
      have h44 : Char.toNat ',' = 44 := rfl
      omega
    · obtain ⟨u, htu, _⟩ := htok t ht
      subst htu
      exact fun heq => normTok_no_upper hd (heq ▸ hct)
  unfold parse_esg_tags parseTagsList
  rw [pyReplaceDel_pair, pyReplaceDel_pair, pyReplaceDel_pair]
  have htl : (List.asString (joinComma e)).toList = joinComma e := rfl
  rw [htl, removeTag_eq_self (hnoU 'E' (by decide)),
    removeTag_eq_self (hnoU 'S' (by decide)),
    removeTag_eq_self (hnoU 'G' (by decide)),
    splitComma_joinComma hne (fun t ht => by
      obtain ⟨u, htu, hu⟩ := htok t ht
      rw [htu]
      exact normTok_no_comma hu)]
  have hmapid : e.map normTok = e := by
    conv_rhs => rw [← List.map_id e]
    apply List.map_congr_left
    intro t ht
    obtain ⟨u, htu, _⟩ := htok t ht
    rw [htu, normTok_idem]
    rfl
  rw [hmapid]

theorem parse_esg_tags_nonempty (s : String) : parse_esg_tags s ≠ ∅ := by
  unfold parse_esg_tags parseTagsList
  intro h0
  rcases hsp : splitComma (pyReplaceDel ['G', ':']
      (pyReplaceDel ['S', ':'] (pyReplaceDel ['E', ':'] s.toList))) with _ | ⟨x, xs⟩
  · exact splitComma_ne_nil _ hsp
  · rw [hsp] at h0
    simp at h0

/-! ### The claims -/

/-- C1 counterexample: the claim as stated is false.  Its condition (4)
tests the **raw** untrimmed leading character of each comma-token
(`rawDimHolds`), and with investor criteria {green}, selected set {S},
and the single project with tags "green, S:jobs", conditions (1)-(3) hold,
condition (4) fails — no token's raw leading character uppercases into
{S}, the second token starts with a space — yet the project's record
appears in the result, because line 80 strips each token before indexing
(`tag.strip()[0]`). -/
theorem c1_counterexample :
    pyFloat (Investor.mk "I" "energy" (.num 1000) "green").min_investment_size =
      some 1000 ∧
    (1000 : ℚ) ≤ 5000 ∧
    0 < esgScoreOf (preferredSet "green") "green, S:jobs" ∧
    rawDimHolds "green, S:jobs" ["S"] = false ∧
    match_projects_to_investor (Investor.mk "I" "energy" (.num 1000) "green")
      [Project.mk "P" "energy" "loc" (.num 5000) "imp" "green, S:jobs" none]
      ["S"] =
      .ok ⟨false, [MatchRec.mk "P" "energy" 5000 1 "Idea"]⟩ :=
  ⟨rfl, by decide, by decide, by decide, by decide⟩

/-- C1 amended: on a run of `match_projects_to_investor` that returns
normally (no exception, no `min_investment_size` error), a project's
record appears in the result iff the four conditions hold simultaneously:
lowercased sector equality, numeric funding at or above the floor,
non-empty intersection of the investor's comma-split lowercased criteria
with the normalized tag set (score > 0), and the dimension-letter
condition in its corrected form — at least one comma-token of the
unparsed `esg_tags` has the first character of its whitespace-stripped
form, uppercased, in the selected set (cf. C4). -/
theorem c1_match_iff_conditions (inv : Investor) (projects : List Project)
    (selected : List String) (minInv : ℚ) (out : MatchedDF)
    (hmin : pyFloat inv.min_investment_size = some minInv)
    (h : match_projects_to_investor inv projects selected = .ok out) :
    (∀ p ∈ projects, ∀ funding, pyFloat p.funding_needed = some funding →
      c1Conditions inv minInv selected p funding →
      recordOf p funding
        (esgScoreOf (preferredSet inv.preferred_esg_criteria) p.esg_tags) ∈
        out.rows) ∧
    (∀ m ∈ out.rows, ∃ p ∈ projects, ∃ funding,
      pyFloat p.funding_needed = some funding ∧
      c1Conditions inv minInv selected p funding ∧
      m = recordOf p funding
        (esgScoreOf (preferredSet inv.preferred_esg_criteria) p.esg_tags)) := by
  rcases match_ok_cases h with ⟨hnone, _⟩ | ⟨minInv', ms, hmin', hc, hout⟩
  · rw [hmin] at hnone
    exact absurd hnone (by simp)
  · rw [hmin] at hmin'
    obtain rfl : minInv = minInv' := Option.some.inj hmin'
    subst hout
    obtain ⟨ha, hb⟩ := collectMatches_ok hc
    constructor
    · intro p hp funding hf hcond
      obtain ⟨c1, c2, c3, c4⟩ := hcond
      obtain ⟨r, hr⟩ := ha p hp
      have hr2 := processProject_conds hr hf c1 c2 c3 c4
      rw [hr2] at hr
      show recordOf p funding _ ∈ List.insertionSort matchLe ms
      rw [(List.perm_insertionSort matchLe ms).mem_iff]
      exact (hb _).mpr ⟨p, hp, hr⟩
    · intro m hm
      have hm2 : m ∈ List.insertionSort matchLe ms := hm
      rw [(List.perm_insertionSort matchLe ms).mem_iff] at hm2
      obtain ⟨p, hp, hpp⟩ := (hb m).mp hm2
      obtain ⟨funding, hf, h1, h2, h3, hd, hmeq⟩ := processProject_ok_some hpp
      unfold dimCheck at hd
      exact ⟨p, hp, funding, hf, ⟨h1, h2, h3, dimScan_ok_true hd⟩, hmeq⟩

/-- Witness for the amended C1 at the specification's worked example with
dimension filter {E}: the hypotheses hold and the conclusion is obtained
by applying `c1_match_iff_conditions`. -/
theorem c1_witness :
    pyFloat (Investor.mk "I" "energy" (.num 10000) "green,solar").min_investment_size =
      some 10000 ∧
    match_projects_to_investor (Investor.mk "I" "energy" (.num 10000) "green,solar")
      [Project.mk "A" "energy" "l1" (.num 15000) "s1" "E:green,S:jobs" none,
       Project.mk "B" "energy" "l2" (.num 8000) "s2" "E:solar" none] ["E"] =
      .ok ⟨false, [MatchRec.mk "A" "energy" 15000 1 "Idea"]⟩ ∧
    ((∀ p ∈ [Project.mk "A" "energy" "l1" (.num 15000) "s1" "E:green,S:jobs" none,
        Project.mk "B" "energy" "l2" (.num 8000) "s2" "E:solar" none],
      ∀ funding, pyFloat p.funding_needed = some funding →
      c1Conditions (Investor.mk "I" "energy" (.num 10000) "green,solar")
        10000 ["E"] p funding →
      recordOf p funding (esgScoreOf (preferredSet "green,solar") p.esg_tags) ∈
        (MatchedDF.mk false [MatchRec.mk "A" "energy" 15000 1 "Idea"]).rows) ∧
    (∀ m ∈ (MatchedDF.mk false [MatchRec.mk "A" "energy" 15000 1 "Idea"]).rows,
      ∃ p ∈ [Project.mk "A" "energy" "l1" (.num 15000) "s1" "E:green,S:jobs" none,
        Project.mk "B" "energy" "l2" (.num 8000) "s2" "E:solar" none],
      ∃ funding, pyFloat p.funding_needed = some funding ∧
      c1Conditions (Investor.mk "I" "energy" (.num 10000) "green,solar")
        10000 ["E"] p funding ∧
      m = recordOf p funding (esgScoreOf (preferredSet "green,solar") p.esg_tags))) :=
  ⟨rfl, by decide, c1_match_iff_conditions _ _ _ _ _ rfl (by decide)⟩

/-- C2: on every successful run, the returned rows are sorted by ESG score
descending then funding ascending (`matchLe`), and each tie class (equal
score and equal funding) appears in the same order as in the pre-sort
match list, which is built in the encounter order of the project
collection. -/
theorem c2_sorted_and_stable (inv : Investor) (projects : List Project)
    (selected : List String) (out : MatchedDF)
    (h : match_projects_to_investor inv projects selected = .ok out) :
    List.Sorted matchLe out.rows ∧
    ∀ minInv ms, pyFloat inv.min_investment_size = some minInv →
      collectMatches (inv.sector_focus.toList.map Char.toLower) minInv
        (preferredSet inv.preferred_esg_criteria) selected projects = .ok ms →
      ∀ s f, out.rows.filter (tieClass s f) = ms.filter (tieClass s f) := by
  rcases match_ok_cases h with ⟨hnone, hout⟩ | ⟨minInv, ms, hmin, hc, hout⟩
  · subst hout
    refine ⟨List.sorted_nil, ?_⟩
    intro minInv ms hmin _ s f
    rw [hmin] at hnone
    exact absurd hnone (by simp)
  · subst hout
    refine ⟨List.sorted_insertionSort matchLe ms, ?_⟩
    intro minInv' ms' hmin' hc' s f
    rw [hmin] at hmin'
    obtain rfl : minInv = minInv' := Option.some.inj hmin'
    rw [hc] at hc'
    obtain rfl : ms = ms' := Except.ok.inj hc'
    exact insertionSort_filter_tie s f ms

/-- Witness for C2 at a small input (both projects of the worked example,
only one of which matches). -/
theorem c2_witness :
    match_projects_to_investor (Investor.mk "I" "energy" (.num 10000) "green,solar")
      [Project.mk "A" "energy" "l1" (.num 15000) "s1" "E:green,S:jobs" none,
       Project.mk "B" "energy" "l2" (.num 8000) "s2" "E:solar" none] ["E"] =
      .ok ⟨false, [MatchRec.mk "A" "energy" 15000 1 "Idea"]⟩ ∧
    (List.Sorted matchLe
      (MatchedDF.mk false [MatchRec.mk "A" "energy" 15000 1 "Idea"]).rows ∧
    ∀ minInv ms,
      pyFloat (Investor.mk "I" "energy" (.num 10000) "green,solar").min_investment_size =
        some minInv →
      collectMatches ((Investor.mk "I" "energy" (.num 10000) "green,solar").sector_focus.toList.map
          Char.toLower) minInv
        (preferredSet (Investor.mk "I" "energy" (.num 10000) "green,solar").preferred_esg_criteria)
        ["E"]
        [Project.mk "A" "energy" "l1" (.num 15000) "s1" "E:green,S:jobs" none,
         Project.mk "B" "energy" "l2" (.num 8000) "s2" "E:solar" none] = .ok ms →
      ∀ s f, (MatchedDF.mk false [MatchRec.mk "A" "energy" 15000 1 "Idea"]).rows.filter
          (tieClass s f) = ms.filter (tieClass s f)) :=
  ⟨by decide, c2_sorted_and_stable _ _ _ _ (by decide)⟩

/-- C3: `parse_esg_tags` computes exactly the specification's normalizer —
remove every occurrence of the substrings "E:", "S:", "G:" anywhere in the
input (global substring removal, in the listed order), split on commas,
trim, lowercase, and collect the set; it is total, the empty string yields
the set with one empty token, and an interior occurrence such as in "aE:b"
is also stripped. -/
theorem c3_normalizer_matches_spec (s : String) :
    parse_esg_tags s = esgNormalizeSpec s ∧
    parse_esg_tags "" = {([] : List Char)} ∧
    parse_esg_tags "aE:b" = {(['a', 'b'] : List Char)} :=
  ⟨parse_eq_spec s, by decide, by decide⟩

/-- C4 counterexample: with criteria {green} and selected dimension {S},
the project with raw tags "green, S:jobs" has no comma-token whose literal
(raw, untrimmed) leading character uppercases into {S} — the second
token's raw leading character is a space — yet the code matches it,
because line 80 strips each token before indexing (`tag.strip()[0]`). -/
theorem c4_counterexample :
    rawDimHolds "green, S:jobs" ["S"] = false ∧
    match_projects_to_investor (Investor.mk "I" "energy" (.num 1000) "green")
      [Project.mk "P" "energy" "loc" (.num 5000) "imp" "green, S:jobs" none]
      ["S"] =
      .ok ⟨false, [MatchRec.mk "P" "energy" 5000 1 "Idea"]⟩ :=
  ⟨by decide, by decide⟩

/-- C4 amended: the dimension-letter filter evaluates the raw, unparsed
tag text (prefixes intact) split on commas, but tests the first character
of each token's whitespace-**stripped** form (`tag.strip()[0].upper()`),
not the raw untrimmed leading character; on inputs where no token strips
to empty, it returns exactly the existence of a token whose stripped first
character, uppercased, lies in the selected set — independent of the ESG
score. -/
theorem c4_amended_strip_first_char (tags : String) (selected : List String)
    (h : ∀ t ∈ splitComma tags.toList, pyStrip t ≠ []) :
    dimCheck tags selected =
      .ok ((splitComma tags.toList).any fun t =>
        firstCharAccepted selected (pyStrip t)) :=
  dimScan_eq_any h

/-- Witness for the amended C4 at the counterexample's tag string. -/
theorem c4_amended_witness :
    (∀ t ∈ splitComma ("green, S:jobs".toList), pyStrip t ≠ []) ∧
    dimCheck "green, S:jobs" ["S"] =
      .ok ((splitComma ("green, S:jobs".toList)).any fun t =>
        firstCharAccepted ["S"] (pyStrip t)) :=
  ⟨by decide, c4_amended_strip_first_char "green, S:jobs" ["S"] (by decide)⟩

/-- C5: a non-numeric `min_investment_size` makes
`match_projects_to_investor` show the user-visible error and return the
empty result; it does not raise. -/
theorem c5_nonNumeric_min_empty (inv : Investor) (projects : List Project)
    (selected : List String) (h : pyFloat inv.min_investment_size = none) :
    match_projects_to_investor inv projects selected = .ok ⟨true, []⟩ := by
  rw [match_projects_to_investor.eq_def, h]

/-- Witness for C5 with a textual `min_investment_size`. -/
theorem c5_witness :
    pyFloat (Investor.mk "I" "energy" (.nonNumeric "ten") "green").min_investment_size =
      none ∧
    match_projects_to_investor (Investor.mk "I" "energy" (.nonNumeric "ten") "green")
      [Project.mk "P" "energy" "loc" (.num 5000) "imp" "E:green" none] ["E"] =
      .ok ⟨true, []⟩ :=
  ⟨rfl, c5_nonNumeric_min_empty _ _ _ rfl⟩

/-- C6: with a numeric `min_investment_size`, a non-numeric
`funding_needed` on any project in the collection makes
`match_projects_to_investor` raise (propagate an exception) instead of
reporting, recovering, or skipping that project. -/
theorem c6_bad_funding_raises (inv : Investor) (projects : List Project)
    (selected : List String) (minInv : ℚ) (p : Project)
    (hmin : pyFloat inv.min_investment_size = some minInv)
    (hp : p ∈ projects) (hf : pyFloat p.funding_needed = none) :
    ∃ e, match_projects_to_investor inv projects selected = .error e := by
  obtain ⟨e, he⟩ := @collectMatches_error_of_badFunding
    (inv.sector_focus.toList.map Char.toLower) minInv
    (preferredSet inv.preferred_esg_criteria) selected projects p hp hf
  exact ⟨e, match_error_of_collect hmin he⟩

/-- Witness for C6 with a textual `funding_needed`. -/
theorem c6_witness :
    pyFloat (Investor.mk "I" "energy" (.num 1000) "green").min_investment_size =
      some 1000 ∧
    Project.mk "P" "energy" "loc" (.nonNumeric "much") "imp" "E:green" none ∈
      [Project.mk "P" "energy" "loc" (.nonNumeric "much") "imp" "E:green" none] ∧
    pyFloat (Project.mk "P" "energy" "loc" (.nonNumeric "much") "imp" "E:green"
      none).funding_needed = none ∧
    ∃ e, match_projects_to_investor (Investor.mk "I" "energy" (.num 1000) "green")
      [Project.mk "P" "energy" "loc" (.nonNumeric "much") "imp" "E:green" none]
      ["E"] = .error e :=
  ⟨rfl, List.mem_cons_self _ _, rfl,
    c6_bad_funding_raises _ _ _ _ _ rfl (List.mem_cons_self _ _) rfl⟩

/-- C7: the specification's worked example.  With dimension filter {E},
exactly project A matches with ESG score 1 (B fails the funding floor);
with dimension filter {S} only, A still matches, via its raw "S:jobs"
token, although its score-qualifying tag is "green". -/
theorem c7_worked_example :
    match_projects_to_investor (Investor.mk "I" "energy" (.num 10000) "green,solar")
      [Project.mk "A" "energy" "l1" (.num 15000) "s1" "E:green,S:jobs" none,
       Project.mk "B" "energy" "l2" (.num 8000) "s2" "E:solar" none] ["E"] =
      .ok ⟨false, [MatchRec.mk "A" "energy" 15000 1 "Idea"]⟩ ∧
    match_projects_to_investor (Investor.mk "I" "energy" (.num 10000) "green,solar")
      [Project.mk "A" "energy" "l1" (.num 15000) "s1" "E:green,S:jobs" none,
       Project.mk "B" "energy" "l2" (.num 8000) "s2" "E:solar" none] ["S"] =
      .ok ⟨false, [MatchRec.mk "A" "energy" 15000 1 "Idea"]⟩ :=
  ⟨by decide, by decide⟩

/-- C8: tag normalization is idempotent — parsing a comma-join of any
enumeration of the already-normalized token set returns the same set. -/
theorem c8_normalization_idempotent (s : String) (e : List (List Char))
    (hnd : e.Nodup) (hset : e.toFinset = parse_esg_tags s) :
    parse_esg_tags (List.asString (joinComma e)) = parse_esg_tags s := by
  have htok : ∀ t ∈ e, ∃ u, t = normTok u ∧ ',' ∉ u := fun t ht =>
    mem_parse_esg_tags (hset ▸ List.mem_toFinset.mpr ht)
  have hne : e ≠ [] := by
    intro h0
    subst h0
    exact parse_esg_tags_nonempty s (by rw [← hset]; rfl)
  rw [parse_esg_tags_join hne htok, hset]

/-- Witness for C8 at "E:Green, solar". -/
theorem c8_witness :
    (["green".toList, "solar".toList] : List (List Char)).Nodup ∧
    (["green".toList, "solar".toList] : List (List Char)).toFinset =
      parse_esg_tags "E:Green, solar" ∧
    parse_esg_tags (List.asString (joinComma ["green".toList, "solar".toList])) =
      parse_esg_tags "E:Green, solar" :=
  ⟨by decide, by decide, c8_normalization_idempotent _ _ (by decide) (by decide)⟩

/-- C9: the note store is last-write-wins on the composite key: after two
successive upserts for the same `(investor_name, project_name)` key,
exactly the second row is retrievable under that key — no prior value or
extra row for the key remains — and rows under every other key are
unchanged. -/
theorem c9_note_upsert_last_write_wins (db : List NoteRow) (i pn : String)
    (v1 v2 : Int) (n1 n2 : String) :
    (upsertNote (upsertNote db ⟨i, pn, v1, n1⟩) ⟨i, pn, v2, n2⟩).filter
      (sameNoteKey i pn) = [⟨i, pn, v2, n2⟩] ∧
    (upsertNote (upsertNote db ⟨i, pn, v1, n1⟩) ⟨i, pn, v2, n2⟩).filter
      (fun r => !(sameNoteKey i pn r)) =
      db.filter (fun r => !(sameNoteKey i pn r)) := by
  unfold upsertNote
  constructor <;>
    simp [sameNoteKey, List.filter_append, List.filter_filter]

/-- C10 counterexample: a project that passes the sector, funding-floor
and score conditions and whose `esg_tags` contains an empty comma-token
("E:green," has the empty trailing token) does **not** raise when an
earlier token is accepted by the dimension filter — `any()`
short-circuits, and the project is matched normally. -/
theorem c10_counterexample :
    ([] : List Char) ∈ splitComma ("E:green,".toList) ∧
    (1000 : ℚ) ≤ 5000 ∧
    0 < esgScoreOf (preferredSet "green") "E:green," ∧
    match_projects_to_investor (Investor.mk "I" "energy" (.num 1000) "green")
      [Project.mk "P" "energy" "loc" (.num 5000) "imp" "E:green," none] ["E"] =
      .ok ⟨false, [MatchRec.mk "P" "energy" 5000 1 "Idea"]⟩ :=
  ⟨by decide, by decide, by decide, by decide⟩

/-- C10 amended: `match_projects_to_investor` is partial at the
dimension-letter filter — if the first project passes the sector,
funding-floor and score conditions and its `esg_tags` has a comma-token
that strips to empty occurring **before any accepted token**, evaluating
`tag.strip()[0]` raises `IndexError`. -/
theorem c10_amended_raises (inv : Investor) (p : Project) (ps : List Project)
    (selected : List String) (minInv funding : ℚ)
    (hmin : pyFloat inv.min_investment_size = some minInv)
    (hf : pyFloat p.funding_needed = some funding)
    (hsec : p.sector.toList.map Char.toLower =
      inv.sector_focus.toList.map Char.toLower)
    (hfund : minInv ≤ funding)
    (hscore : 0 < esgScoreOf (preferredSet inv.preferred_esg_criteria) p.esg_tags)
    (htok : ∃ pre t post, splitComma p.esg_tags.toList = pre ++ t :: post ∧
      pyStrip t = [] ∧
      ∀ u ∈ pre, firstCharAccepted selected (pyStrip u) = false) :
    match_projects_to_investor inv (p :: ps) selected = .error .indexError := by
  obtain ⟨pre, t, post, hsplit, ht, hpre⟩ := htok
  have hdim : dimCheck p.esg_tags selected = .error .indexError := by
    unfold dimCheck
    rw [hsplit]
    exact dimScan_error_of_layout pre t post ht hpre
  have hproc : processProject (inv.sector_focus.toList.map Char.toLower) minInv
      (preferredSet inv.preferred_esg_criteria) selected p =
      .error .indexError := by
    have hstep : processProject (inv.sector_focus.toList.map Char.toLower) minInv
        (preferredSet inv.preferred_esg_criteria) selected p =
        if p.sector.toList.map Char.toLower =
            inv.sector_focus.toList.map Char.toLower ∧
            minInv ≤ funding ∧
            0 < esgScoreOf (preferredSet inv.preferred_esg_criteria) p.esg_tags then
          match dimCheck p.esg_tags selected with
          | .error e => .error e
          | .ok true => .ok (some (recordOf p funding
              (esgScoreOf (preferredSet inv.preferred_esg_criteria) p.esg_tags)))
          | .ok false => .ok none
        else .ok none := by
      rw [processProject.eq_def, hf]
    rw [hstep, if_pos ⟨hsec, hfund, hscore⟩, hdim]
  have hcol : collectMatches (inv.sector_focus.toList.map Char.toLower) minInv
      (preferredSet inv.preferred_esg_criteria) selected (p :: ps) =
      .error .indexError := by
    rw [collectMatches, hproc]
  exact match_error_of_collect hmin hcol

/-- Witness for the amended C10: investor criteria {green}, project tags
"green," (trailing comma, so the second token is empty), selected {E}; the
first token "green" is not accepted ('G' is not in {E}), so the scan
reaches the empty token and the run raises `IndexError`. -/
theorem c10_amended_witness :
    pyFloat (Investor.mk "I" "energy" (.num 1000) "green").min_investment_size =
      some 1000 ∧
    (∃ pre t post, splitComma ("green,".toList) = pre ++ t :: post ∧
      pyStrip t = [] ∧
      ∀ u ∈ pre, firstCharAccepted ["E"] (pyStrip u) = false) ∧
    match_projects_to_investor (Investor.mk "I" "energy" (.num 1000) "green")
      [Project.mk "P" "energy" "loc" (.num 5000) "imp" "green," none] ["E"] =
      .error .indexError :=
  ⟨rfl,
    ⟨["green".toList], [], [], by decide, rfl, by decide⟩,
    c10_amended_raises _ _ _ _ _ _ rfl rfl (by decide) (by decide) (by decide)
      ⟨["green".toList], [], [], by decide, rfl, by decide⟩⟩

end InvestorMatcher
